import Mathlib

/-!
Verification of `baseline/evaluation_measures.py` (DCASE 2020 task 4 baseline
evaluation code).  The Python functions operating on numpy arrays and pandas
tables are shallowly embedded as Lean functions over lists: a 2-d label array
of shape (examples × classes) becomes a `List (List ℤ)` of rows, a dataframe
of event rows becomes a list of structures, and float arithmetic on
F-measures is carried out over `ℚ` (the computations involved are exact
ratios of integer counts, so `ℚ` reflects the mathematical value the numpy
code computes, and all of the properties proved below are about these exact
rational values).
-/

namespace EvalMeasures

/-- Per-class count over the rows of a pair of equally long 2-d arrays:
for class index `j`, the number of row pairs `(r, e)` whose `j`-th entries
satisfy the Boolean test `f`.  This is the common shape of the four numpy
reductions `(...).sum(axis=0)` in `intermediate_at_measures`. -/
def colCount (f : ℤ → ℤ → Bool) (ref est : List (List ℤ)) (c : ℕ) : List ℕ :=
  (List.range c).map fun j =>
    (ref.zip est).countP fun p => f (p.1.getD j 0) (p.2.getD j 0)

/-- Embedding of `intermediate_at_measures(encoded_ref, encoded_est)`:
`tp = (est + ref == 2).sum(axis=0)`, `fp = (est - ref == 1).sum(axis=0)`,
`fn = (ref - est == 1).sum(axis=0)`, `tn = (est + ref == 0).sum(axis=0)`.
The class count `c` is implicit in the numpy shapes and passed explicitly
here. -/
def intermediate_at_measures (encoded_ref encoded_est : List (List ℤ)) (c : ℕ) :
    List ℕ × List ℕ × List ℕ × List ℕ :=
  (colCount (fun r e => e + r == 2) encoded_ref encoded_est c,
   colCount (fun r e => e - r == 1) encoded_ref encoded_est c,
   colCount (fun r e => r - e == 1) encoded_ref encoded_est c,
   colCount (fun r e => e + r == 0) encoded_ref encoded_est c)

/-- A 2-d array is binary when every entry is 0 or 1. -/
def IsBinary (a : List (List ℤ)) : Prop :=
  ∀ row ∈ a, ∀ x ∈ row, x = 0 ∨ x = 1

/-- A 2-d array has shape (n × c). -/
def HasShape (a : List (List ℤ)) (n c : ℕ) : Prop :=
  a.length = n ∧ ∀ row ∈ a, row.length = c

instance (a : List (List ℤ)) : Decidable (IsBinary a) :=
  decidable_of_iff (∀ row ∈ a, ∀ x ∈ row, x = 0 ∨ x = 1) Iff.rfl

instance (a : List (List ℤ)) (n c : ℕ) : Decidable (HasShape a n c) :=
  decidable_of_iff (a.length = n ∧ ∀ row ∈ a, row.length = c) Iff.rfl

/-- Embedding of `macro_f_measure(tp, fp, fn)`: start from a zero vector of
length `tp.shape[-1]`, and on the mask `2*tp + fp + fn != 0` assign
`2*tp / (2*tp + fp + fn)`.  Entry `j` of the result is therefore the guarded
quotient below; the guarded positions are exactly the ones numpy divides at,
so no division error can occur. -/
def macro_f_measure (tp fp fn : List ℚ) : List ℚ :=
  (List.range tp.length).map fun j =>
    if 2 * tp.getD j 0 + fp.getD j 0 + fn.getD j 0 ≠ 0 then
      2 * tp.getD j 0 / (2 * tp.getD j 0 + fp.getD j 0 + fn.getD j 0)
    else 0

/-- All entries of the list are nonnegative. -/
def Nonneg (l : List ℚ) : Prop := ∀ x ∈ l, 0 ≤ x

instance (l : List ℚ) : Decidable (Nonneg l) :=
  decidable_of_iff (∀ x ∈ l, 0 ≤ x) Iff.rfl

/-- A row of a strong-label event table: the dataframe columns `filename`,
`onset`, `offset`, `event_label`, with a missing (`NaN`) label embedded as
`none`. -/
structure EventRow where
  filename : String
  onset : ℚ
  offset : ℚ
  event_label : Option String
deriving DecidableEq

/-- One record of the event list handed to the temporal-matching collaborator:
either a full row (`to_dict('records')`) with every column present, or the
"no event" sentinel carrying only the filename. -/
structure EventRecord where
  filename : String
  onset : Option ℚ
  offset : Option ℚ
  event_label : Option String
deriving DecidableEq

/-- A dataframe row rendered by `to_dict('records')`: all four columns. -/
def toRecord (r : EventRow) : EventRecord :=
  ⟨r.filename, some r.onset, some r.offset, r.event_label⟩

/-- Embedding of `get_event_list_current_file(df, fname)`: filter the table to
the rows whose `filename` equals `fname`; if exactly one row matches and its
`event_label` is missing, return the filename-only sentinel, otherwise return
the matching rows as records. -/
def get_event_list_current_file (df : List EventRow) (fname : String) :
    List EventRecord :=
  match df.filter (fun r => r.filename == fname) with
  | [r] =>
      if r.event_label.isNone then [⟨fname, none, none, none⟩] else [toRecord r]
  | l => l.map toRecord

/-- A row of a formatted weak-label table: a filename and its multi-hot label
vector over the class vocabulary. -/
structure WeakRow where
  filename : String
  event_label : List ℤ
deriving DecidableEq

/-- A row of the merge of the two weak-label tables, the two label columns
suffixed `_ref` and `_pred`; a side missing for this filename is `none`
(pandas `NaN`). -/
structure MatchedRow where
  filename : String
  event_label_ref : Option (List ℤ)
  event_label_pred : Option (List ℤ)
deriving DecidableEq

/-- `reference.merge(estimated, how='outer', on="filename",
suffixes=["_ref", "_pred"])` for tables whose filenames are unique on each
side: every reference row paired with the estimate row of the same filename
when one exists, followed by the estimate rows whose filename does not occur
in the reference. -/
def mergeOuter (ref est : List WeakRow) : List MatchedRow :=
  (ref.map fun r =>
    ⟨r.filename, some r.event_label,
      (est.find? fun e => e.filename == r.filename).map WeakRow.event_label⟩)
  ++ ((est.filter fun e => !(ref.any fun r => r.filename == e.filename)).map
      fun e => ⟨e.filename, none, some e.event_label⟩)

/-- Embedding of the inner `na_values(val)` of `audio_tagging_results`: a
missing label vector is replaced by a zero vector of vocabulary length `c`,
a present one is kept. -/
def na_values (c : ℕ) (val : Option (List ℤ)) : List ℤ :=
  val.getD (List.replicate c 0)

/-- Modelled from the spec: `ManyHotEncoder.encode_weak` (defined in
`utilities/utils.py`, which is not under src/).  Per §3 a weak label vector is
a fixed-length multi-hot vector over the class vocabulary, position `j` being
1 exactly when the vocabulary's `j`-th class is among the given labels. -/
def encode_weak (classes : List String) (labels : List String) : List ℤ :=
  classes.map fun cl => if cl ∈ labels then 1 else 0

/-- The class vocabulary built by `audio_tagging_results`: the distinct
non-null labels of the reference and of the estimate (`list(set(...))`,
realised here with a deterministic first-occurrence order). -/
def classesOf (reference estimated : List EventRow) : List String :=
  ((reference.filterMap EventRow.event_label)
    ++ (estimated.filterMap EventRow.event_label)).dedup

/-- Embedding of `format_df(df, mhe)` on a strong-label table: one row per
distinct filename, carrying the multi-hot encoding of the distinct non-null
labels seen for that file. -/
def format_df (classes : List String) (df : List EventRow) : List WeakRow :=
  (df.map EventRow.filename).dedup.map fun f =>
    ⟨f, encode_weak classes
      (((df.filter fun r => r.filename == f).filterMap EventRow.event_label).dedup)⟩

/-- Embedding of `audio_tagging_results(reference, estimated)` on strong-label
tables: build the vocabulary, format both tables, and — unless the estimate
table is empty, in which case the result is an all-zero vector over the
vocabulary — outer-merge them on filename, fill the missing sides with zero
vectors, accumulate confusion counts and reduce them to per-class F-measures.
The result pairs each vocabulary class with its score (the returned pandas
series is indexed by the encoder's labels). -/
def audio_tagging_results (reference estimated : List EventRow) :
    List (String × ℚ) :=
  let classes := classesOf reference estimated
  let ref_w := format_df classes reference
  let est_w := format_df classes estimated
  if estimated.isEmpty then
    classes.map fun cl => (cl, (0 : ℚ))
  else
    let matching := mergeOuter ref_w est_w
    let refArr := matching.map fun row => na_values classes.length row.event_label_ref
    let predArr := matching.map fun row => na_values classes.length row.event_label_pred
    let meas := intermediate_at_measures refArr predArr classes.length
    classes.zip (macro_f_measure (meas.1.map fun k => (k : ℚ))
      (meas.2.1.map fun k => (k : ℚ)) (meas.2.2.1.map fun k => (k : ℚ)))

/-- The binarization failure the spec's §4.1/§7 policy names. -/
inductive BinarizeError
  | configurationError
deriving DecidableEq

/-- The two thresholding modes selected by `get_f_measure_by_class`. -/
inductive BinarizationType
  | global_threshold
  | class_threshold
deriving DecidableEq

/-- Modelled from the spec: the Binarizer — `dcase_util`'s
`ProbabilityEncoder.binarization`, whose caller `get_f_measure_by_class` is
under src/ but whose body is not.  Per §4.1 it turns an (examples × classes)
score array into a 0/1 label array of the same shape, each entry 1 exactly
when its score exceeds the applicable threshold (scalar in
`global_threshold` mode, the class's own entry in `class_threshold` mode);
in `class_threshold` mode the threshold list must have exactly one entry per
class, and any violation fails immediately with a ConfigurationError. -/
def binarization (scores : List (List ℚ)) (btype : BinarizationType)
    (globalThresh : ℚ) (classThresh : List ℚ) (c : ℕ) :
    Except BinarizeError (List (List ℤ)) :=
  match btype with
  | .global_threshold =>
      .ok (scores.map fun row => (List.range c).map fun j =>
        if globalThresh < row.getD j 0 then 1 else 0)
  | .class_threshold =>
      if classThresh.length ≠ c then .error .configurationError
      else .ok (scores.map fun row => (List.range c).map fun j =>
        if classThresh.getD j 0 < row.getD j 0 then 1 else 0)

end EvalMeasures

namespace EvalMeasures

lemma getD_mem {α : Type} {l : List α} {i : ℕ} (d : α) (h : i < l.length) :
    l.getD i d ∈ l := by
  rw [List.getD_eq_getElem l d h]
  exact List.getElem_mem h

lemma zipWith_self_eq_map {α β : Type} (f : α → α → β) (l : List α) :
    List.zipWith f l l = l.map fun a => f a a := by
  induction l with
  | nil => rfl
  | cons a l ih => simp [ih]

/-- Counting matching row pairs of two equally long lists equals counting the
matching row indices. -/
lemma countP_zip_eq_card {α β : Type} (q : α → β → Bool) (d₁ : α) (d₂ : β) :
    ∀ (xs : List α) (ys : List β), xs.length = ys.length →
      (xs.zip ys).countP (fun p => q p.1 p.2)
        = (Finset.univ.filter
            (fun i : Fin xs.length => q (xs.getD i d₁) (ys.getD i d₂))).card := by
  intro xs
  induction xs with
  | nil => intro ys _; simp
  | cons x xs ih =>
      intro ys hlen
      cases ys with
      | nil => simp at hlen
      | cons y ys =>
          have hlen' : xs.length = ys.length := by
            simpa using hlen
          rw [List.zip_cons_cons, List.countP_cons]
          rw [Finset.card_filter]
          simp only [List.length_cons]
          rw [Fin.sum_univ_succ]
          simp only [Fin.val_succ, List.getD_cons_succ, List.getD_cons_zero,
            Fin.val_zero]
          rw [← Finset.card_filter, ih ys hlen']
          omega

/-- The class-`j` component of a `colCount` reduction, for `j < c`, is the
number of row indices whose class-`j` entries satisfy the test. -/
lemma colCount_getD (f : ℤ → ℤ → Bool) (ref est : List (List ℤ)) (c : ℕ)
    (hlen : ref.length = est.length) (j : ℕ) (hj : j < c) :
    (colCount f ref est c).getD j 0
      = (Finset.univ.filter
          (fun i : Fin ref.length =>
            f ((ref.getD i []).getD j 0) ((est.getD i []).getD j 0))).card := by
  have hjlen : j < ((List.range c).map fun j =>
      (ref.zip est).countP fun p => f (p.1.getD j 0) (p.2.getD j 0)).length := by
    simpa using hj
  rw [colCount, List.getD_eq_getElem _ 0 hjlen, List.getElem_map,
    List.getElem_range]
  exact countP_zip_eq_card (fun r e => f (r.getD j 0) (e.getD j 0)) [] [] ref est hlen

/-- Class-`j` entry of a shaped binary array at a row index `i < n` is 0 or 1. -/
lemma binary_entry {a : List (List ℤ)} {n c : ℕ} (ha : HasShape a n c)
    (hb : IsBinary a) {j : ℕ} (hj : j < c) {i : ℕ} (hi : i < n) :
    (a.getD i []).getD j 0 = 0 ∨ (a.getD i []).getD j 0 = 1 := by
  have h1 := ha.1
  have hia : i < a.length := by omega
  have hrow : a.getD i [] ∈ a := getD_mem [] hia
  have hrl : (a.getD i []).length = c := ha.2 _ hrow
  have hx : (a.getD i []).getD j 0 ∈ a.getD i [] := getD_mem 0 (by omega)
  exact hb _ hrow _ hx

/-- When the arithmetic test `f` agrees with the logical condition `P` on
binary entries, a `colCount` component is the cardinality of the row-index
set cut out by `P`. -/
lemma count_eq_of_binary (f : ℤ → ℤ → Bool) (P : ℤ → ℤ → Prop)
    [∀ r e, Decidable (P r e)]
    (hfP : ∀ r e, r = 0 ∨ r = 1 → e = 0 ∨ e = 1 → (f r e = true ↔ P r e))
    (ref est : List (List ℤ)) (n c : ℕ)
    (href : HasShape ref n c) (hest : HasShape est n c)
    (hbr : IsBinary ref) (hbe : IsBinary est) (j : ℕ) (hj : j < c) :
    (colCount f ref est c).getD j 0
      = (Finset.univ.filter (fun i : Fin n =>
          P ((ref.getD i []).getD j 0) ((est.getD i []).getD j 0))).card := by
  obtain ⟨hrn, hrc⟩ := href
  subst hrn
  rw [colCount_getD f ref est c hest.1.symm j hj]
  congr 1
  apply Finset.filter_congr
  intro i _
  exact hfP _ _ (binary_entry ⟨rfl, hrc⟩ hbr hj i.isLt) (binary_entry hest hbe hj i.isLt)

/-- C1: for binary arrays of shape (n × c), `intermediate_at_measures` returns,
at every class index `j < c`, `tp_j` = number of row indices with ref 1 and est
1, `fp_j` = ref 0 and est 1, `fn_j` = ref 1 and est 0, `tn_j` = ref 0 and est
0. -/
theorem intermediate_at_measures_confusion_counts
    (ref est : List (List ℤ)) (n c : ℕ)
    (href : HasShape ref n c) (hest : HasShape est n c)
    (hbr : IsBinary ref) (hbe : IsBinary est) (j : ℕ) (hj : j < c) :
    (intermediate_at_measures ref est c).1.getD j 0
        = (Finset.univ.filter (fun i : Fin n =>
            (ref.getD i []).getD j 0 = 1 ∧ (est.getD i []).getD j 0 = 1)).card
    ∧ (intermediate_at_measures ref est c).2.1.getD j 0
        = (Finset.univ.filter (fun i : Fin n =>
            (ref.getD i []).getD j 0 = 0 ∧ (est.getD i []).getD j 0 = 1)).card
    ∧ (intermediate_at_measures ref est c).2.2.1.getD j 0
        = (Finset.univ.filter (fun i : Fin n =>
            (ref.getD i []).getD j 0 = 1 ∧ (est.getD i []).getD j 0 = 0)).card
    ∧ (intermediate_at_measures ref est c).2.2.2.getD j 0
        = (Finset.univ.filter (fun i : Fin n =>
            (ref.getD i []).getD j 0 = 0 ∧ (est.getD i []).getD j 0 = 0)).card := by
  refine ⟨?_, ?_, ?_, ?_⟩ <;> simp only [intermediate_at_measures]
  · exact count_eq_of_binary (fun r e => e + r == 2) (fun r e => r = 1 ∧ e = 1)
      (by intro r e hr he; rcases hr with rfl | rfl <;> rcases he with rfl | rfl <;> decide)
      ref est n c href hest hbr hbe j hj
  · exact count_eq_of_binary (fun r e => e - r == 1) (fun r e => r = 0 ∧ e = 1)
      (by intro r e hr he; rcases hr with rfl | rfl <;> rcases he with rfl | rfl <;> decide)
      ref est n c href hest hbr hbe j hj
  · exact count_eq_of_binary (fun r e => r - e == 1) (fun r e => r = 1 ∧ e = 0)
      (by intro r e hr he; rcases hr with rfl | rfl <;> rcases he with rfl | rfl <;> decide)
      ref est n c href hest hbr hbe j hj
  · exact count_eq_of_binary (fun r e => e + r == 0) (fun r e => r = 0 ∧ e = 0)
      (by intro r e hr he; rcases hr with rfl | rfl <;> rcases he with rfl | rfl <;> decide)
      ref est n c href hest hbr hbe j hj

/-- Witness for C1 at ref = [[1,0],[1,1]], est = [[1,1],[0,1]], j = 0. -/
theorem intermediate_at_measures_confusion_counts_witness :
    HasShape [[1, 0], [1, 1]] 2 2 ∧ HasShape [[1, 1], [0, 1]] 2 2
    ∧ IsBinary [[1, 0], [1, 1]] ∧ IsBinary [[1, 1], [0, 1]]
    ∧ ((intermediate_at_measures [[1, 0], [1, 1]] [[1, 1], [0, 1]] 2).1.getD 0 0
        = (Finset.univ.filter (fun i : Fin 2 =>
            (([[1, 0], [1, 1]] : List (List ℤ)).getD i []).getD 0 0 = 1
            ∧ (([[1, 1], [0, 1]] : List (List ℤ)).getD i []).getD 0 0 = 1)).card
      ∧ (intermediate_at_measures [[1, 0], [1, 1]] [[1, 1], [0, 1]] 2).2.1.getD 0 0
        = (Finset.univ.filter (fun i : Fin 2 =>
            (([[1, 0], [1, 1]] : List (List ℤ)).getD i []).getD 0 0 = 0
            ∧ (([[1, 1], [0, 1]] : List (List ℤ)).getD i []).getD 0 0 = 1)).card
      ∧ (intermediate_at_measures [[1, 0], [1, 1]] [[1, 1], [0, 1]] 2).2.2.1.getD 0 0
        = (Finset.univ.filter (fun i : Fin 2 =>
            (([[1, 0], [1, 1]] : List (List ℤ)).getD i []).getD 0 0 = 1
            ∧ (([[1, 1], [0, 1]] : List (List ℤ)).getD i []).getD 0 0 = 0)).card
      ∧ (intermediate_at_measures [[1, 0], [1, 1]] [[1, 1], [0, 1]] 2).2.2.2.getD 0 0
        = (Finset.univ.filter (fun i : Fin 2 =>
            (([[1, 0], [1, 1]] : List (List ℤ)).getD i []).getD 0 0 = 0
            ∧ (([[1, 1], [0, 1]] : List (List ℤ)).getD i []).getD 0 0 = 0)).card) :=
  ⟨by decide, by decide, by decide, by decide,
    intermediate_at_measures_confusion_counts [[1, 0], [1, 1]] [[1, 1], [0, 1]] 2 2
      (by decide) (by decide) (by decide) (by decide) 0 (by decide)⟩

/-- C2: for binary arrays of shape (n × c), the four per-class counts of
`intermediate_at_measures` sum to the number of examples `n` at every class
index `j < c`. -/
theorem intermediate_at_measures_counts_partition
    (ref est : List (List ℤ)) (n c : ℕ)
    (href : HasShape ref n c) (hest : HasShape est n c)
    (hbr : IsBinary ref) (hbe : IsBinary est) (j : ℕ) (hj : j < c) :
    (intermediate_at_measures ref est c).1.getD j 0
      + (intermediate_at_measures ref est c).2.1.getD j 0
      + (intermediate_at_measures ref est c).2.2.1.getD j 0
      + (intermediate_at_measures ref est c).2.2.2.getD j 0 = n := by
  have h1 := count_eq_of_binary (fun r e => e + r == 2) (fun r e => r = 1 ∧ e = 1)
    (by intro r e hr he; rcases hr with rfl | rfl <;> rcases he with rfl | rfl <;> decide)
    ref est n c href hest hbr hbe j hj
  have h2 := count_eq_of_binary (fun r e => e - r == 1) (fun r e => r = 0 ∧ e = 1)
    (by intro r e hr he; rcases hr with rfl | rfl <;> rcases he with rfl | rfl <;> decide)
    ref est n c href hest hbr hbe j hj
  have h3 := count_eq_of_binary (fun r e => r - e == 1) (fun r e => r = 1 ∧ e = 0)
    (by intro r e hr he; rcases hr with rfl | rfl <;> rcases he with rfl | rfl <;> decide)
    ref est n c href hest hbr hbe j hj
  have h4 := count_eq_of_binary (fun r e => e + r == 0) (fun r e => r = 0 ∧ e = 0)
    (by intro r e hr he; rcases hr with rfl | rfl <;> rcases he with rfl | rfl <;> decide)
    ref est n c href hest hbr hbe j hj
  simp only [intermediate_at_measures] at h1 h2 h3 h4 ⊢
  rw [h1, h2, h3, h4]
  rw [Finset.card_filter, Finset.card_filter, Finset.card_filter, Finset.card_filter]
  simp only [← Finset.sum_add_distrib]
  have hone : ∀ i : Fin n,
      ((if (ref.getD i []).getD j 0 = 1 ∧ (est.getD i []).getD j 0 = 1 then 1 else 0)
        + (if (ref.getD i []).getD j 0 = 0 ∧ (est.getD i []).getD j 0 = 1 then 1 else 0)
        + (if (ref.getD i []).getD j 0 = 1 ∧ (est.getD i []).getD j 0 = 0 then 1 else 0)
        + (if (ref.getD i []).getD j 0 = 0 ∧ (est.getD i []).getD j 0 = 0 then 1 else 0)) = 1 := by
    intro i
    rcases binary_entry href hbr hj i.isLt with hr | hr <;>
      rcases binary_entry hest hbe hj i.isLt with he | he <;>
      rw [hr, he] <;> decide
  rw [Finset.sum_congr rfl fun i _ => hone i]
  simp

/-- Witness for C2 at ref = [[1,0],[0,1]], est = [[1,1],[1,0]], j = 1. -/
theorem intermediate_at_measures_counts_partition_witness :
    HasShape [[1, 0], [0, 1]] 2 2 ∧ HasShape [[1, 1], [1, 0]] 2 2
    ∧ IsBinary [[1, 0], [0, 1]] ∧ IsBinary [[1, 1], [1, 0]] ∧ (1 : ℕ) < 2
    ∧ ((intermediate_at_measures [[1, 0], [0, 1]] [[1, 1], [1, 0]] 2).1.getD 1 0
        + (intermediate_at_measures [[1, 0], [0, 1]] [[1, 1], [1, 0]] 2).2.1.getD 1 0
        + (intermediate_at_measures [[1, 0], [0, 1]] [[1, 1], [1, 0]] 2).2.2.1.getD 1 0
        + (intermediate_at_measures [[1, 0], [0, 1]] [[1, 1], [1, 0]] 2).2.2.2.getD 1 0 = 2) :=
  ⟨by decide, by decide, by decide, by decide, by decide,
    intermediate_at_measures_counts_partition [[1, 0], [0, 1]] [[1, 1], [1, 0]] 2 2
      (by decide) (by decide) (by decide) (by decide) 1 (by decide)⟩

/-- Batch additivity of a single `colCount` reduction. -/
lemma colCount_append (f : ℤ → ℤ → Bool) (r1 e1 r2 e2 : List (List ℤ)) (c : ℕ)
    (h : r1.length = e1.length) :
    colCount f (r1 ++ r2) (e1 ++ e2) c
      = List.zipWith (· + ·) (colCount f r1 e1 c) (colCount f r2 e2 c) := by
  unfold colCount
  rw [List.zipWith_map, zipWith_self_eq_map]
  apply List.map_congr_left
  intro j _
  rw [List.zip_append h, List.countP_append]

/-- C3: accumulating `intermediate_at_measures` over two successive binary
batches and summing the four count vectors elementwise equals accumulating
once over the row-wise concatenation. -/
theorem intermediate_at_measures_batch_additive
    (r1 e1 r2 e2 : List (List ℤ)) (n1 n2 c : ℕ)
    (h1r : HasShape r1 n1 c) (h1e : HasShape e1 n1 c)
    (h2r : HasShape r2 n2 c) (h2e : HasShape e2 n2 c)
    (hb1 : IsBinary r1) (hb2 : IsBinary e1) (hb3 : IsBinary r2) (hb4 : IsBinary e2) :
    intermediate_at_measures (r1 ++ r2) (e1 ++ e2) c
      = (List.zipWith (· + ·) (intermediate_at_measures r1 e1 c).1
           (intermediate_at_measures r2 e2 c).1,
         List.zipWith (· + ·) (intermediate_at_measures r1 e1 c).2.1
           (intermediate_at_measures r2 e2 c).2.1,
         List.zipWith (· + ·) (intermediate_at_measures r1 e1 c).2.2.1
           (intermediate_at_measures r2 e2 c).2.2.1,
         List.zipWith (· + ·) (intermediate_at_measures r1 e1 c).2.2.2
           (intermediate_at_measures r2 e2 c).2.2.2) := by
  have hlen : r1.length = e1.length := by rw [h1r.1, h1e.1]
  simp only [intermediate_at_measures, Prod.mk.injEq]
  exact ⟨colCount_append _ _ _ _ _ _ hlen, colCount_append _ _ _ _ _ _ hlen,
    colCount_append _ _ _ _ _ _ hlen, colCount_append _ _ _ _ _ _ hlen⟩

/-- Witness for C3 at batches ([[1,0]],[[1,1]]) and ([[0,1],[1,1]],[[0,0],[1,0]]). -/
theorem intermediate_at_measures_batch_additive_witness :
    HasShape [[1, 0]] 1 2 ∧ HasShape [[1, 1]] 1 2
    ∧ HasShape [[0, 1], [1, 1]] 2 2 ∧ HasShape [[0, 0], [1, 0]] 2 2
    ∧ IsBinary [[1, 0]] ∧ IsBinary [[1, 1]]
    ∧ IsBinary [[0, 1], [1, 1]] ∧ IsBinary [[0, 0], [1, 0]]
    ∧ intermediate_at_measures ([[1, 0]] ++ [[0, 1], [1, 1]]) ([[1, 1]] ++ [[0, 0], [1, 0]]) 2
      = (List.zipWith (· + ·) (intermediate_at_measures [[1, 0]] [[1, 1]] 2).1
           (intermediate_at_measures [[0, 1], [1, 1]] [[0, 0], [1, 0]] 2).1,
         List.zipWith (· + ·) (intermediate_at_measures [[1, 0]] [[1, 1]] 2).2.1
           (intermediate_at_measures [[0, 1], [1, 1]] [[0, 0], [1, 0]] 2).2.1,
         List.zipWith (· + ·) (intermediate_at_measures [[1, 0]] [[1, 1]] 2).2.2.1
           (intermediate_at_measures [[0, 1], [1, 1]] [[0, 0], [1, 0]] 2).2.2.1,
         List.zipWith (· + ·) (intermediate_at_measures [[1, 0]] [[1, 1]] 2).2.2.2
           (intermediate_at_measures [[0, 1], [1, 1]] [[0, 0], [1, 0]] 2).2.2.2) :=
  ⟨by decide, by decide, by decide, by decide, by decide, by decide, by decide, by decide,
    intermediate_at_measures_batch_additive [[1, 0]] [[1, 1]] [[0, 1], [1, 1]] [[0, 0], [1, 0]]
      1 2 2 (by decide) (by decide) (by decide) (by decide)
      (by decide) (by decide) (by decide) (by decide)⟩

lemma getD_nonneg {l : List ℚ} (h : Nonneg l) (j : ℕ) : 0 ≤ l.getD j 0 := by
  by_cases hj : j < l.length
  · exact h _ (getD_mem 0 hj)
  · rw [List.getD_eq_default _ 0 (by omega)]

lemma macro_f_measure_getD (tp fp fn : List ℚ) (j : ℕ) (hj : j < tp.length) :
    (macro_f_measure tp fp fn).getD j 0
      = if 2 * tp.getD j 0 + fp.getD j 0 + fn.getD j 0 = 0 then 0
        else 2 * tp.getD j 0 / (2 * tp.getD j 0 + fp.getD j 0 + fn.getD j 0) := by
  have hjlen : j < ((List.range tp.length).map fun j =>
      if 2 * tp.getD j 0 + fp.getD j 0 + fn.getD j 0 ≠ 0 then
        2 * tp.getD j 0 / (2 * tp.getD j 0 + fp.getD j 0 + fn.getD j 0)
      else 0).length := by simpa using hj
  rw [macro_f_measure, List.getD_eq_getElem _ 0 hjlen, List.getElem_map,
    List.getElem_range]
  by_cases h : 2 * tp.getD j 0 + fp.getD j 0 + fn.getD j 0 = 0 <;> simp [h]

/-- C4: for nonnegative per-class count vectors, `macro_f_measure` is total
(one output entry per class of `tp`) and at every class `j` returns
`2*tp_j / (2*tp_j + fp_j + fn_j)` when the denominator is nonzero and exactly
0 when it is zero — the division is only ever performed under the nonzero
mask. -/
theorem macro_f_measure_formula (tp fp fn : List ℚ)
    (htp : Nonneg tp) (hfp : Nonneg fp) (hfn : Nonneg fn) (j : ℕ) (hj : j < tp.length) :
    (macro_f_measure tp fp fn).length = tp.length
    ∧ (macro_f_measure tp fp fn).getD j 0
      = if 2 * tp.getD j 0 + fp.getD j 0 + fn.getD j 0 = 0 then 0
        else 2 * tp.getD j 0 / (2 * tp.getD j 0 + fp.getD j 0 + fn.getD j 0) :=
  ⟨by simp [macro_f_measure], macro_f_measure_getD tp fp fn j hj⟩

/-- Witness for C4 at tp = [1], fp = [1], fn = [0], j = 0. -/
theorem macro_f_measure_formula_witness :
    Nonneg [1] ∧ Nonneg [0] ∧ (0 : ℕ) < 1
    ∧ ((macro_f_measure [1] [1] [0]).length = ([1] : List ℚ).length
      ∧ (macro_f_measure [1] [1] [0]).getD 0 0
        = if 2 * ([1] : List ℚ).getD 0 0 + ([1] : List ℚ).getD 0 0
              + ([0] : List ℚ).getD 0 0 = 0 then 0
          else 2 * ([1] : List ℚ).getD 0 0
              / (2 * ([1] : List ℚ).getD 0 0 + ([1] : List ℚ).getD 0 0
                  + ([0] : List ℚ).getD 0 0)) :=
  ⟨by norm_num [Nonneg], by norm_num [Nonneg], by norm_num,
    macro_f_measure_formula [1] [1] [0] (by norm_num [Nonneg]) (by norm_num [Nonneg])
      (by norm_num [Nonneg]) 0 (by norm_num)⟩

/-- C5 as stated is false: with tp = [0], fp = [1], fn = [0] the class-0
F-measure is 0 (the code computes 0/1 = 0) even though the three counts are
not all zero — fp_0 = 1. -/
theorem macro_f_measure_zero_iff_counterexample :
    Nonneg [(0 : ℚ)] ∧ Nonneg [(1 : ℚ)]
    ∧ (macro_f_measure [0] [1] [0]).getD 0 0 = 0
    ∧ ¬(([0] : List ℚ).getD 0 0 = 0 ∧ ([1] : List ℚ).getD 0 0 = 0
          ∧ ([0] : List ℚ).getD 0 0 = 0) := by
  refine ⟨by norm_num [Nonneg], by norm_num [Nonneg], ?_, by norm_num⟩
  norm_num [macro_f_measure, List.range_succ]

/-- C5 amended: for nonnegative per-class count vectors every per-class
F-measure lies in [0, 1], and F_j = 0 exactly when tp_j = 0 (not only when
tp_j = fp_j = fn_j = 0: a class with tp = 0 but positive fp or fn also gets
F = 0). -/
theorem macro_f_measure_range_and_zero_iff (tp fp fn : List ℚ)
    (htp : Nonneg tp) (hfp : Nonneg fp) (hfn : Nonneg fn) (j : ℕ) (hj : j < tp.length) :
    (0 ≤ (macro_f_measure tp fp fn).getD j 0 ∧ (macro_f_measure tp fp fn).getD j 0 ≤ 1)
    ∧ ((macro_f_measure tp fp fn).getD j 0 = 0 ↔ tp.getD j 0 = 0) := by
  have ht : 0 ≤ tp.getD j 0 := getD_nonneg htp j
  have hp : 0 ≤ fp.getD j 0 := getD_nonneg hfp j
  have hn : 0 ≤ fn.getD j 0 := getD_nonneg hfn j
  rw [macro_f_measure_getD tp fp fn j hj]
  by_cases h : 2 * tp.getD j 0 + fp.getD j 0 + fn.getD j 0 = 0
  · have ht0 : tp.getD j 0 = 0 := by linarith
    rw [if_pos h]
    exact ⟨⟨le_refl 0, by norm_num⟩, ⟨fun _ => ht0, fun _ => rfl⟩⟩
  · have hd : 0 < 2 * tp.getD j 0 + fp.getD j 0 + fn.getD j 0 :=
      lt_of_le_of_ne (by linarith) (Ne.symm h)
    rw [if_neg h]
    refine ⟨⟨div_nonneg (by linarith) hd.le, (div_le_one hd).mpr (by linarith)⟩, ?_⟩
    rw [div_eq_zero_iff]
    constructor
    · rintro (h2 | h2)
      · linarith
      · exact absurd h2 h
    · intro h2; left; rw [h2]; ring

/-- C6: `get_event_list_current_file` returns the filename-only sentinel when
exactly one row matches the filename and its label is missing, and otherwise
one full record (filename, onset, offset, event_label) per matching row,
preserving all matching rows in order. -/
theorem get_event_list_current_file_policy (df : List EventRow) (fname : String) :
    (∀ r, df.filter (fun r => r.filename == fname) = [r] → r.event_label = none →
      get_event_list_current_file df fname = [⟨fname, none, none, none⟩])
    ∧ (¬(∃ r, df.filter (fun r => r.filename == fname) = [r] ∧ r.event_label = none) →
      get_event_list_current_file df fname
        = (df.filter (fun r => r.filename == fname)).map toRecord) := by
  constructor
  · intro r hr hlab
    unfold get_event_list_current_file
    rw [hr]
    simp [hlab]
  · intro hne
    unfold get_event_list_current_file
    cases hfl : df.filter (fun r => r.filename == fname) with
    | nil => rfl
    | cons a t =>
        cases t with
        | nil =>
            have hna : ¬ a.event_label = none := fun h' => hne ⟨a, hfl, h'⟩
            simp [Option.isNone_iff_eq_none, hna, toRecord]
        | cons b t' => rfl

/-- Witness for C6 on the one-row table {filename = "a.wav", label missing}. -/
theorem get_event_list_current_file_policy_witness :
    ([⟨"a.wav", 0, 1, none⟩] : List EventRow).filter
        (fun r => r.filename == "a.wav") = [⟨"a.wav", 0, 1, none⟩]
    ∧ (⟨"a.wav", 0, 1, none⟩ : EventRow).event_label = none
    ∧ get_event_list_current_file [⟨"a.wav", 0, 1, none⟩] "a.wav"
      = [⟨"a.wav", none, none, none⟩] :=
  ⟨rfl, rfl,
    (get_event_list_current_file_policy [⟨"a.wav", 0, 1, none⟩] "a.wav").1
      ⟨"a.wav", 0, 1, none⟩ rfl rfl⟩

/-- C10: a filename with no matching row yields the empty list — not the
filename-only sentinel — so an absent filename is distinguishable from a
present filename with no events. -/
theorem get_event_list_current_file_absent (df : List EventRow) (fname : String)
    (h : ∀ r ∈ df, ¬ r.filename = fname) :
    get_event_list_current_file df fname = []
    ∧ get_event_list_current_file df fname ≠ [⟨fname, none, none, none⟩] := by
  have hfl : df.filter (fun r => r.filename == fname) = [] := by
    rw [List.filter_eq_nil_iff]
    intro a ha
    simpa using h a ha
  have hres : get_event_list_current_file df fname = [] := by
    unfold get_event_list_current_file
    rw [hfl]
    rfl
  exact ⟨hres, by rw [hres]; simp⟩

/-- Witness for C10: table containing only "a.wav", queried for "b.wav". -/
theorem get_event_list_current_file_absent_witness :
    (∀ r ∈ ([⟨"a.wav", 0, 1, some "dog"⟩] : List EventRow), ¬ r.filename = "b.wav")
    ∧ (get_event_list_current_file [⟨"a.wav", 0, 1, some "dog"⟩] "b.wav" = []
      ∧ get_event_list_current_file [⟨"a.wav", 0, 1, some "dog"⟩] "b.wav"
        ≠ [⟨"b.wav", none, none, none⟩]) :=
  ⟨by decide,
    get_event_list_current_file_absent [⟨"a.wav", 0, 1, some "dog"⟩] "b.wav" (by decide)⟩

/-- C7: for formatted weak-label tables whose filenames are unique on each
side, the outer merge of `audio_tagging_results` has exactly one row per
filename in the union of the two sides (no duplicates, and a row for a
filename exactly when it occurs on some side), and `na_values` turns the
label column of a side missing for a filename into an all-zero vector of
vocabulary length `c`. -/
theorem mergeOuter_outer_join (ref est : List WeakRow) (c : ℕ)
    (hr : (ref.map WeakRow.filename).Nodup) (he : (est.map WeakRow.filename).Nodup) :
    ((mergeOuter ref est).map MatchedRow.filename).Nodup
    ∧ (∀ f, f ∈ (mergeOuter ref est).map MatchedRow.filename ↔
        f ∈ ref.map WeakRow.filename ∨ f ∈ est.map WeakRow.filename)
    ∧ (∀ row ∈ mergeOuter ref est, row.filename ∉ est.map WeakRow.filename →
        na_values c row.event_label_pred = List.replicate c 0)
    ∧ (∀ row ∈ mergeOuter ref est, row.filename ∉ ref.map WeakRow.filename →
        na_values c row.event_label_ref = List.replicate c 0) := by
  have hmapfn : (mergeOuter ref est).map MatchedRow.filename
      = ref.map WeakRow.filename
        ++ (est.filter fun e => !(ref.any fun r => r.filename == e.filename)).map
            WeakRow.filename := by
    unfold mergeOuter
    rw [List.map_append, List.map_map, List.map_map]
    rfl
  have hfilterP : ∀ e ∈ est.filter fun e => !(ref.any fun r => r.filename == e.filename),
      e.filename ∉ ref.map WeakRow.filename := by
    intro e hemem hin
    rw [List.mem_filter] at hemem
    obtain ⟨r, hrr, hfr⟩ := List.mem_map.mp hin
    have hany : (ref.any fun r => r.filename == e.filename) = true :=
      List.any_eq_true.mpr ⟨r, hrr, by simp [hfr]⟩
    rw [hany] at hemem
    exact absurd hemem.2 (by simp)
  refine ⟨?_, ?_, ?_, ?_⟩
  · rw [hmapfn]
    refine List.Nodup.append hr (((List.filter_sublist est).map _).nodup he) ?_
    intro f hf1 hf2
    obtain ⟨e, hee, hfe⟩ := List.mem_map.mp hf2
    exact hfilterP e hee (hfe ▸ hf1)
  · intro f
    rw [hmapfn, List.mem_append]
    constructor
    · rintro (h1 | h2)
      · exact Or.inl h1
      · obtain ⟨e, hee, hfe⟩ := List.mem_map.mp h2
        rw [List.mem_filter] at hee
        exact Or.inr (List.mem_map.mpr ⟨e, hee.1, hfe⟩)
    · rintro (h1 | h2)
      · exact Or.inl h1
      · by_cases hf : f ∈ ref.map WeakRow.filename
        · exact Or.inl hf
        · refine Or.inr ?_
          obtain ⟨e, hee, hfe⟩ := List.mem_map.mp h2
          refine List.mem_map.mpr ⟨e, List.mem_filter.mpr ⟨hee, ?_⟩, hfe⟩
          have hnone : (ref.any fun r => r.filename == e.filename) = false := by
            rw [List.any_eq_false]
            intro r hrr hbeq
            exact hf (List.mem_map.mpr ⟨r, hrr, by rw [eq_of_beq hbeq, hfe]⟩)
          rw [hnone]
          rfl
  · intro row hrow hnotest
    unfold mergeOuter at hrow
    rw [List.mem_append] at hrow
    rcases hrow with hl | hr2
    · obtain ⟨r, hrr, rfl⟩ := List.mem_map.mp hl
      have hfind : est.find? (fun e => e.filename == r.filename) = none := by
        rw [List.find?_eq_none]
        intro e hee hbeq
        exact hnotest (List.mem_map.mpr ⟨e, hee, eq_of_beq hbeq⟩)
      simp [na_values, hfind]
    · obtain ⟨e, hee, rfl⟩ := List.mem_map.mp hr2
      rw [List.mem_filter] at hee
      exact absurd (List.mem_map.mpr ⟨e, hee.1, rfl⟩) hnotest
  · intro row hrow hnotref
    unfold mergeOuter at hrow
    rw [List.mem_append] at hrow
    rcases hrow with hl | hr2
    · obtain ⟨r, hrr, rfl⟩ := List.mem_map.mp hl
      exact absurd (List.mem_map.mpr ⟨r, hrr, rfl⟩) hnotref
    · obtain ⟨e, hee, rfl⟩ := List.mem_map.mp hr2
      rfl

/-- Witness for C7 on the spec's example: reference files {a,b}, estimate
files {b,c}. -/
theorem mergeOuter_outer_join_witness :
    (([⟨"a.wav", [1]⟩, ⟨"b.wav", [0]⟩] : List WeakRow).map WeakRow.filename).Nodup
    ∧ (([⟨"b.wav", [1]⟩, ⟨"c.wav", [1]⟩] : List WeakRow).map WeakRow.filename).Nodup
    ∧ (((mergeOuter [⟨"a.wav", [1]⟩, ⟨"b.wav", [0]⟩] [⟨"b.wav", [1]⟩, ⟨"c.wav", [1]⟩]).map
          MatchedRow.filename).Nodup
      ∧ (∀ f, f ∈ (mergeOuter [⟨"a.wav", [1]⟩, ⟨"b.wav", [0]⟩]
            [⟨"b.wav", [1]⟩, ⟨"c.wav", [1]⟩]).map MatchedRow.filename ↔
          f ∈ ([⟨"a.wav", [1]⟩, ⟨"b.wav", [0]⟩] : List WeakRow).map WeakRow.filename
          ∨ f ∈ ([⟨"b.wav", [1]⟩, ⟨"c.wav", [1]⟩] : List WeakRow).map WeakRow.filename)
      ∧ (∀ row ∈ mergeOuter [⟨"a.wav", [1]⟩, ⟨"b.wav", [0]⟩]
            [⟨"b.wav", [1]⟩, ⟨"c.wav", [1]⟩],
          row.filename ∉ ([⟨"b.wav", [1]⟩, ⟨"c.wav", [1]⟩] : List WeakRow).map
              WeakRow.filename →
          na_values 1 row.event_label_pred = List.replicate 1 0)
      ∧ (∀ row ∈ mergeOuter [⟨"a.wav", [1]⟩, ⟨"b.wav", [0]⟩]
            [⟨"b.wav", [1]⟩, ⟨"c.wav", [1]⟩],
          row.filename ∉ ([⟨"a.wav", [1]⟩, ⟨"b.wav", [0]⟩] : List WeakRow).map
              WeakRow.filename →
          na_values 1 row.event_label_ref = List.replicate 1 0)) :=
  ⟨by decide, by decide,
    mergeOuter_outer_join [⟨"a.wav", [1]⟩, ⟨"b.wav", [0]⟩]
      [⟨"b.wav", [1]⟩, ⟨"c.wav", [1]⟩] 1 (by decide) (by decide)⟩

/-- C9: in class_threshold mode the Binarizer requires exactly one threshold
per class; a threshold list of any other length fails immediately with a
ConfigurationError and no label array is produced. -/
theorem binarization_class_threshold_length (scores : List (List ℚ))
    (g : ℚ) (ts : List ℚ) (c : ℕ) (h : ts.length ≠ c) :
    binarization scores .class_threshold g ts c
      = Except.error BinarizeError.configurationError := by
  unfold binarization
  rw [if_pos h]

/-- Witness for C9: two thresholds for a single class. -/
theorem binarization_class_threshold_length_witness :
    ([(1 : ℚ)/2, 1/2].length ≠ 1)
    ∧ binarization [[(3 : ℚ)/4]] .class_threshold (1/2) [1/2, 1/2] 1
      = Except.error BinarizeError.configurationError :=
  ⟨by norm_num,
    binarization_class_threshold_length [[(3 : ℚ)/4]] (1/2) [1/2, 1/2] 1 (by norm_num)⟩

/-- C8: with a non-empty reference table and an empty estimate table,
`audio_tagging_results` does not fail: it returns one entry per vocabulary
class, every class scored 0. -/
theorem audio_tagging_results_empty_estimate (reference : List EventRow)
    (h : reference ≠ []) :
    (audio_tagging_results reference []).length = (classesOf reference []).length
    ∧ ∀ p ∈ audio_tagging_results reference [], p.2 = 0 := by
  have hres : audio_tagging_results reference []
      = (classesOf reference []).map fun cl => (cl, (0 : ℚ)) := rfl
  rw [hres]
  refine ⟨by simp, ?_⟩
  intro p hp
  obtain ⟨cl, _, rfl⟩ := List.mem_map.mp hp
  rfl

/-- Witness for C8 at reference = [{"x", 0, 1, "dog"}]. -/
theorem audio_tagging_results_empty_estimate_witness :
    ([⟨"x", 0, 1, some "dog"⟩] : List EventRow) ≠ []
    ∧ ((audio_tagging_results [⟨"x", 0, 1, some "dog"⟩] []).length
        = (classesOf [⟨"x", 0, 1, some "dog"⟩] []).length
      ∧ ∀ p ∈ audio_tagging_results [⟨"x", 0, 1, some "dog"⟩] [], p.2 = 0) :=
  ⟨by simp,
    audio_tagging_results_empty_estimate [⟨"x", 0, 1, some "dog"⟩] (by simp)⟩

/-- Witness for the amended C5 at tp = [2], fp = [1], fn = [1], j = 0. -/
theorem macro_f_measure_range_and_zero_iff_witness :
    Nonneg [2] ∧ Nonneg [1] ∧ (0 : ℕ) < 1
    ∧ ((0 ≤ (macro_f_measure [2] [1] [1]).getD 0 0
        ∧ (macro_f_measure [2] [1] [1]).getD 0 0 ≤ 1)
      ∧ ((macro_f_measure [2] [1] [1]).getD 0 0 = 0 ↔ ([2] : List ℚ).getD 0 0 = 0)) :=
  ⟨by norm_num [Nonneg], by norm_num [Nonneg], by norm_num,
    macro_f_measure_range_and_zero_iff [2] [1] [1] (by norm_num [Nonneg])
      (by norm_num [Nonneg]) (by norm_num [Nonneg]) 0 (by norm_num)⟩

end EvalMeasures
